import Mathlib

/-!
Shallow embedding of the PDF invoice layout engine in
app/invoice_generator.py (class ProfessionalInvoice).

Geometry is measured in centipoints: 1 point = 100 units, 1 inch = 7200.
Every float constant of the source is exactly representable at this scale
(for example 0.18 * inch = 1296, 1.6 * inch = 11520).  Font metrics are a
parameter cw : Char → ℤ giving each character width in centipoints;
stringWidth is the sum of the character widths, matching the additive
string metrics used by reportlab.  Text is modeled as List Char; the
Python splitlines / split / strip helpers are modeled for the LF-separated
ASCII data the repository feeds the generator.
-/

/-- Python whitespace test, ASCII range (space, tab, LF, CR, VT, FF). -/
def isPySpace (c : Char) : Bool :=
  c == ' ' || c == '\t' || c == '\n' || c == '\r' || c == '\x0b' || c == '\x0c'

/-- reportlab stringWidth: additive over characters. -/
def strWidth (cw : Char → ℤ) (s : List Char) : ℤ :=
  (s.map cw).sum

/-- Python text.replace of tab with four spaces. -/
def expandTabs (s : List Char) : List Char :=
  s.flatMap (fun c => if c = '\t' then [' ', ' ', ' ', ' '] else [c])

/-- Python text.split given the separator LF: keeps empty fields. -/
def splitOnNl : List Char → List (List Char)
  | [] => [[]]
  | c :: rest =>
    if c = '\n' then [] :: splitOnNl rest
    else
      match splitOnNl rest with
      | [] => [[c]]
      | l :: ls => (c :: l) :: ls

/-- Python text.splitlines for LF-separated text: empty text gives no
lines and a trailing LF does not open a final empty line. -/
def splitlinesPy (s : List Char) : List (List Char) :=
  if s = [] then []
  else if s.getLast? = some '\n' then (splitOnNl s).dropLast
  else splitOnNl s

/-- Python text.lstrip. -/
def lstripPy (s : List Char) : List Char :=
  s.dropWhile isPySpace

/-- Python text.strip. -/
def stripPy (s : List Char) : List Char :=
  (((s.dropWhile isPySpace).reverse).dropWhile isPySpace).reverse

/-- Accumulator loop behind Python text.split with no separator:
runs of whitespace separate words, no empty words are produced. -/
def splitWordsAux : List Char → List Char → List (List Char)
  | [], acc => if acc = [] then [] else [acc.reverse]
  | c :: cs, acc =>
    if isPySpace c then
      if acc = [] then splitWordsAux cs []
      else acc.reverse :: splitWordsAux cs []
    else splitWordsAux cs (c :: acc)

/-- Python text.split with no separator. -/
def splitWordsPy (s : List Char) : List (List Char) :=
  splitWordsAux s []

/-- Inner word loop of _split_description: line is the accumulator begun
at indent, each overflow emits the current line and restarts at
indent ++ word.  Returns the emitted lines and the final accumulator. -/
def splitLine (cw : Char → ℤ) (maxW : ℤ) (indent : List Char) :
    List Char → List (List Char) → List (List Char) × List Char
  | line, [] => ([], line)
  | line, w :: ws =>
    let test := if line.any (fun c => !isPySpace c) then line ++ ' ' :: w
                else indent ++ w
    if strWidth cw test ≤ maxW then
      splitLine cw maxW indent test ws
    else
      let r := splitLine cw maxW indent (indent ++ w) ws
      (line :: r.1, r.2)

/-- The indent of a physical line: its leading whitespace after tab
expansion, captured by the regex match in _split_description. -/
def indentOf (physLine : List Char) : List Char :=
  (expandTabs physLine).takeWhile isPySpace

/-- The words of a physical line after tab expansion, as the source
computes them: strip then split. -/
def wordsOf (physLine : List Char) : List (List Char) :=
  splitWordsPy (stripPy (expandTabs physLine))

/-- One iteration of the outer loop of _split_description: expand tabs,
capture the leading-whitespace indent, wrap the words greedily starting
from the bare indent, and append the final accumulator under the source
conditions (the elif branch of the source is kept although no input
reaches it). -/
def wrapPhysicalLine (cw : Char → ℤ) (maxW : ℤ) (physLine : List Char) :
    List (List Char) :=
  let r := splitLine cw maxW (indentOf physLine) (indentOf physLine)
    (wordsOf physLine)
  if r.2 ≠ [] ∨ stripPy (expandTabs physLine) = [] then r.1 ++ [r.2]
  else if wordsOf physLine = [] then r.1 ++ [[]]
  else r.1

/-- _split_description of ProfessionalInvoice: wrap each physical line
independently and concatenate the output lines. -/
def split_description (cw : Char → ℤ) (maxW : ℤ) (text : List Char) :
    List (List Char) :=
  ((splitlinesPy text).map (wrapPhysicalLine cw maxW)).flatten

/-! Page geometry constants of ProfessionalInvoice, in centipoints. -/

/-- One inch, in centipoints. -/
def inch : ℤ := 7200

/-- MARGIN = 0.75 * inch. -/
def MARGIN : ℤ := 5400

/-- HEADER_HEIGHT = 1.2 * inch. -/
def HEADER_HEIGHT : ℤ := 8640

/-- FOOTER_HEIGHT = 1.5 * inch. -/
def FOOTER_HEIGHT : ℤ := 10800

/-- Letter page width, 8.5 * inch. -/
def pageWidth : ℤ := 61200

/-- Letter page height, 11 * inch. -/
def pageHeight : ℤ := 79200

/-- table_width = width - 2 * MARGIN. -/
def table_width : ℤ := pageWidth - 2 * MARGIN

/-- desc_col_width: 40 percent of the table width minus a 0.1 inch
gutter (the division is exact: 50400 * 40 / 100 = 20160). -/
def desc_col_width : ℤ := table_width * 40 / 100 - 720

/-- min_y used by pagination and the totals box: FOOTER_HEIGHT + inch. -/
def min_table_y : ℤ := FOOTER_HEIGHT + inch

/-- Totals box height, 1.6 * inch. -/
def box_height : ℤ := 11520

/-- Minimum row height, 0.25 * inch. -/
def row_min_height : ℤ := 1800

/-- Per wrapped description line row height, 0.18 * inch. -/
def row_line_height : ℤ := 1296

/-- A table row as built by _paginate_table_rows:
(item description, wrapped description lines, row height). -/
abbrev Row : Type := List Char × List (List Char) × ℤ

/-- The per-item computation inside the _paginate_table_rows loop:
wrap the description at desc_col_width and compute
row_height = max(0.25 * inch, 0.18 * inch * len(desc_lines)). -/
def rowOf (cw : Char → ℤ) (d : List Char) : Row :=
  let lines := split_description cw desc_col_width d
  (d, lines, max row_min_height (row_line_height * (lines.length : ℤ)))

/-- The while loop of _paginate_table_rows, generic in the row type and
its height function.  Each step closes the current page first when the
next row would cross minY and the page already holds a row, then places
the row and advances the cursor; a closed page records yPos, the top of
the table band, and the cursor restarts at yPos. -/
def paginateGo {α : Type} (h : α → ℤ) (minY yPos : ℤ) :
    List α → ℤ → List α → List (ℤ × List α)
  | [], _, pageItems =>
    if pageItems.isEmpty then [] else [(yPos, pageItems)]
  | it :: rest, currentY, pageItems =>
    if currentY - h it < minY ∧ pageItems.isEmpty = false then
      (yPos, pageItems) :: paginateGo h minY yPos rest (yPos - h it) [it]
    else
      paginateGo h minY yPos rest (currentY - h it) (pageItems ++ [it])

/-- Row pagination, generic in the row type and height distribution. -/
def paginateRows {α : Type} (h : α → ℤ) (minY yPos : ℤ) (items : List α) :
    List (ℤ × List α) :=
  paginateGo h minY yPos items yPos []

/-- _paginate_table_rows of ProfessionalInvoice: the loop body computes
rowOf for each item in order (a pure function of the item), paginates by
row height against min_y = FOOTER_HEIGHT + inch, and every page records
the y_position argument as its table top. -/
def paginate_table_rows (cw : Char → ℤ) (items : List (List Char))
    (y_position : ℤ) : List (ℤ × List Row) :=
  paginateRows (fun r => r.2.2) min_table_y y_position (items.map (rowOf cw))

/-- Totals fields of invoice_data used by _draw_totals_section. -/
structure TotalsData where
  subtotal : ℤ
  discount_amount : ℤ
  timbre : ℤ
  tax_percent : ℤ
  tax_amount : ℤ
  total_amount : ℤ
deriving DecidableEq, Repr

/-- Canvas drawing primitives recorded by the model. -/
inductive DrawOp where
  | rect : DrawOp
  | line : DrawOp
  | text : DrawOp
deriving DecidableEq, Repr

/-- _draw_totals_section: when the box bottom would cross min_y it draws
nothing and returns (False, y_position); otherwise it draws the box
(one rect, the subtotal pair, the optional discount and timbre pairs
when those amounts are truthy, the tax pair, the divider line and the
total pair) and returns (True, y_position - box_height - 0.5 * inch). -/
def draw_totals_section (td : TotalsData) (y_position : ℤ) :
    Bool × ℤ × List DrawOp :=
  if y_position - box_height < min_table_y then
    (false, y_position, [])
  else
    (true, y_position - box_height - 3600,
      [DrawOp.rect, DrawOp.text, DrawOp.text]
      ++ (if td.discount_amount ≠ 0 then [DrawOp.text, DrawOp.text] else [])
      ++ (if td.timbre ≠ 0 then [DrawOp.text, DrawOp.text] else [])
      ++ [DrawOp.text, DrawOp.text, DrawOp.line, DrawOp.text, DrawOp.text])

/-- The notes label of _draw_notes_section. -/
def notes_label : List Char := "Notes: ".data

/-- The while loop of wrap_line in _draw_notes_section: state is the
remaining words, the current line, the pending prefix, the effective
width, and the emitted lines.  An overflow with a nonempty current line
emits prefix ++ current, clears the prefix and widens back to maxW. -/
def wrapLineGo (cw : Char → ℤ) (maxW : ℤ) :
    List (List Char) → List Char → List Char → ℤ → List (List Char) →
    List (List Char)
  | [], current, pfx, _, out =>
    if current ≠ [] ∨ out = [] then out ++ [pfx ++ current] else out
  | w :: ws, current, pfx, effW, out =>
    let sep : List Char := if current ≠ [] then [' '] else []
    let candidate := current ++ sep ++ w
    if strWidth cw candidate > effW ∧ current ≠ [] then
      wrapLineGo cw maxW ws w [] maxW (out ++ [pfx ++ current])
    else
      wrapLineGo cw maxW ws candidate pfx effW out

/-- wrap_line of _draw_notes_section.  The source sets prefix to the
notes label exactly on the first physical line and branches on prefix
truthiness; notes_label is the nonempty constant "Notes: ", so that
truthiness test equals the isFirst flag here. -/
def wrap_line (cw : Char → ℤ) (maxW : ℤ) (line : List Char)
    (isFirst : Bool) : List (List Char) :=
  wrapLineGo cw maxW
    (if isFirst then splitWordsPy (lstripPy line) else splitWordsPy line)
    []
    (if isFirst then notes_label else [])
    (if isFirst then maxW - strWidth cw notes_label else maxW)
    []

/-- The sequence of text lines drawn by _draw_notes_section: nothing for
empty notes, otherwise tabs are expanded, the text is split into
physical lines and each is wrapped, with is_first true only for the
first physical line.  The source draws each returned line in order. -/
def draw_notes_section (cw : Char → ℤ) (maxW : ℤ) (notes : List Char) :
    List (List Char) :=
  if notes = [] then []
  else
    match splitlinesPy (expandTabs notes) with
    | [] => []
    | l :: ls =>
      wrap_line cw maxW l true
      ++ (ls.map (fun l2 => wrap_line cw maxW l2 false)).flatten

/-- _calc_info_block_height: one main line, the LF-split address lines,
plus the extra items (the callers always pass [phone, email]);
0.3 inch above and below and 0.15 inch per line. -/
def calc_info_block_height (address : List Char)
    (extraItems : List (List Char)) : ℤ :=
  2160 +
    (1 + ((splitOnNl address).length : ℤ) +
      (if extraItems ≠ [] then (extraItems.length : ℤ) else 0)) * 1080
  + 2160

/-- The y offset returned by _table_rows_drawer: the page top minus the
sum of the row heights, minus a 0.3 inch gap. -/
def table_rows_drawer_y (page_y : ℤ) (rows : List Row) : ℤ :=
  page_y - (rows.map (fun r => r.2.2)).sum - 2160

/-- The page-count bookkeeping of generate_invoice.  Returns none when
items is empty: the source then evaluates table_pages[-1] on an empty
list and raises IndexError.  Otherwise returns
(page_count, emitted, probe_fit, real_fit) where page_count is
len(table_pages) plus one when the dummy-canvas probe reports no fit,
probe_fit is that probe decision taken at
table_rows_drawer_y(table_pages[-1][0], last rows), real_fit is the
decision the real render takes on the last table page, whose rows start
at page_y - 0.3 inch on page 1 (the drawn table header) and at
height - HEADER_HEIGHT - 0.5 inch - 0.3 inch on later pages, and
emitted is the number of pages the real render writes:
len(table_pages) plus one when the real totals placement overflows. -/
def generate_invoice (cw : Char → ℤ)
    (companyAddress customerAddress : List Char) (td : TotalsData)
    (items : List (List Char)) : Option (ℕ × ℕ × Bool × Bool) :=
  let company_h := calc_info_block_height companyAddress [[], []]
  let customer_h := calc_info_block_height customerAddress [[], []]
  let block_h := max company_h customer_h
  let y_position := pageHeight - HEADER_HEIGHT - 3600
  let table_start_y := y_position - block_h - 3600
  let table_pages := paginate_table_rows cw items table_start_y
  match table_pages.getLast? with
  | none => none
  | some last =>
    let y_test := table_rows_drawer_y last.1 last.2
    let can_fit := (draw_totals_section td y_test).1
    let page_count := table_pages.length + (if can_fit then 0 else 1)
    let rows_start_y :=
      (if table_pages.length = 1 then last.1
       else pageHeight - HEADER_HEIGHT - 3600) - 2160
    let y_end := table_rows_drawer_y rows_start_y last.2
    let real_fit := (draw_totals_section td y_end).1
    let emitted := table_pages.length + (if real_fit then 0 else 1)
    some (page_count, emitted, can_fit, real_fit)

/-! Concrete sample inputs used by witnesses and counterexamples. -/

/-- Unit character width: every glyph one centipoint wide. -/
def cwOne : Char → ℤ := fun _ => 1

/-- Totals data with every amount zero. -/
def tdZero : TotalsData := ⟨0, 0, 0, 0, 0, 0⟩

/-- A three-line address, as in the sample data of the source. -/
def addr3 : List Char := "a\nb\nc".data

/-- Join words with single spaces, the shape of every line built by the
greedy wrap loop. -/
def joinSp : List (List Char) → List Char
  | [] => []
  | [w] => w
  | w :: ws => w ++ ' ' :: joinSp ws

/-! Helper lemmas about the Python string helpers. -/

/-- Every word produced by the split loop is nonempty and contains no
whitespace character, provided the accumulator contains none. -/
theorem mem_splitWordsAux (s : List Char) :
    ∀ (acc : List Char), (∀ c ∈ acc, isPySpace c = false) →
      ∀ w ∈ splitWordsAux s acc, w ≠ [] ∧ ∀ c ∈ w, isPySpace c = false := by
  induction s with
  | nil =>
    intro acc hacc w hw
    simp only [splitWordsAux] at hw
    split at hw
    · simp at hw
    · next h =>
      simp only [List.mem_singleton] at hw
      subst hw
      exact ⟨by simpa using h, fun c hc => hacc c (List.mem_reverse.mp hc)⟩
  | cons c cs ih =>
    intro acc hacc w hw
    simp only [splitWordsAux] at hw
    split at hw
    · split at hw
      · exact ih [] (by simp) w hw
      · next hne =>
        rcases List.mem_cons.mp hw with h | h
        · subst h
          exact ⟨by simpa using hne,
            fun d hd => hacc d (List.mem_reverse.mp hd)⟩
        · exact ih [] (by simp) w h
    · next hc =>
      refine ih (c :: acc) ?_ w hw
      intro d hd
      rcases List.mem_cons.mp hd with rfl | hd
      · simpa using hc
      · exact hacc d hd

/-- The split loop returns no words exactly when the accumulator is
empty and the remaining text is all whitespace. -/
theorem splitWordsAux_eq_nil_iff (s : List Char) :
    ∀ (acc : List Char),
      splitWordsAux s acc = [] ↔ acc = [] ∧ ∀ c ∈ s, isPySpace c = true := by
  induction s with
  | nil =>
    intro acc
    simp only [splitWordsAux]
    split <;> simp_all
  | cons c cs ih =>
    intro acc
    simp only [splitWordsAux]
    split
    · next hc =>
      split
      · next ha => subst ha; simp [ih, hc]
      · next ha => simp [ha]
    · next hc =>
      simp only [ih]
      constructor
      · rintro ⟨h1, _⟩; simp at h1
      · rintro ⟨_, hall⟩
        exact absurd (hall c (List.mem_cons_self c cs)) (by simpa using hc)

/-- dropWhile is the identity when no element satisfies the predicate. -/
theorem dropWhile_all_false {p : Char → Bool} :
    ∀ {l : List Char}, (∀ c ∈ l, p c = false) → l.dropWhile p = l := by
  intro l h
  cases l with
  | nil => rfl
  | cons a t =>
    rw [List.dropWhile_cons, if_neg (by simp [h a (List.mem_cons_self a t)])]

/-- The head surviving dropWhile fails the predicate. -/
theorem dropWhile_head_false {p : Char → Bool} :
    ∀ (l : List Char) (c : Char) (t : List Char),
      l.dropWhile p = c :: t → p c = false := by
  intro l
  induction l with
  | nil => intro c t h; simp at h
  | cons a l ih =>
    intro c t h
    rw [List.dropWhile_cons] at h
    split at h
    · exact ih c t h
    · next ha => cases h; simpa using ha

/-- Tab expansion is the identity on tab-free text. -/
theorem expandTabs_eq_self :
    ∀ (s : List Char), (∀ c ∈ s, c ≠ '\t') → expandTabs s = s := by
  intro s
  induction s with
  | nil => intro _; rfl
  | cons a t ih =>
    intro h
    simp only [expandTabs, List.flatMap_cons]
    rw [if_neg (h a (List.mem_cons_self a t))]
    have ht : expandTabs t = t := ih (fun c hc => h c (List.mem_cons_of_mem a hc))
    simp only [expandTabs] at ht
    rw [ht]
    rfl

/-- On all-nonspace text the split loop returns a single word: the
accumulator followed by the text. -/
theorem splitWordsAux_all_nonspace :
    ∀ (s acc : List Char), (∀ c ∈ s, isPySpace c = false) →
      splitWordsAux s acc =
        if acc.reverse ++ s = [] then [] else [acc.reverse ++ s] := by
  intro s
  induction s with
  | nil =>
    intro acc _
    simp only [splitWordsAux, List.append_nil]
    split <;> simp_all
  | cons c cs ih =>
    intro acc h
    have hc : isPySpace c = false := h c (List.mem_cons_self c cs)
    simp only [splitWordsAux, hc, Bool.false_eq_true, if_false]
    rw [ih (c :: acc) (fun d hd => h d (List.mem_cons_of_mem c hd))]
    simp [List.append_eq_nil]

/-- Python split of a single nonempty whitespace-free token. -/
theorem splitWordsPy_single (s : List Char) (hne : s ≠ [])
    (h : ∀ c ∈ s, isPySpace c = false) : splitWordsPy s = [s] := by
  unfold splitWordsPy
  rw [splitWordsAux_all_nonspace s [] h]
  simp [hne]

/-- strip is the identity on whitespace-free text. -/
theorem stripPy_eq_self (s : List Char)
    (h : ∀ c ∈ s, isPySpace c = false) : stripPy s = s := by
  unfold stripPy
  rw [dropWhile_all_false h,
    dropWhile_all_false (fun c hc => h c (List.mem_reverse.mp hc)),
    List.reverse_reverse]

/-- If the stripped text splits into no words it is empty. -/
theorem stripPy_eq_nil_of_words_nil (p : List Char)
    (h : splitWordsPy (stripPy p) = []) : stripPy p = [] := by
  have hall := ((splitWordsAux_eq_nil_iff (stripPy p) []).mp h).2
  by_contra hne
  obtain ⟨c, t, hct⟩ :
      ∃ c t, (p.dropWhile isPySpace).reverse.dropWhile isPySpace = c :: t := by
    cases hq : (p.dropWhile isPySpace).reverse.dropWhile isPySpace with
    | nil =>
      exact absurd (by unfold stripPy; rw [hq]; rfl) hne
    | cons c t => exact ⟨c, t, rfl⟩
  have hcfalse := dropWhile_head_false _ _ _ hct
  have hcmem : c ∈ stripPy p := by
    unfold stripPy
    rw [hct]
    exact List.mem_reverse.mpr (List.mem_cons_self c t)
  have := hall c hcmem
  simp [this] at hcfalse

/-! Helper lemmas about joinSp. -/

/-- joinSp on a cons with nonempty tail. -/
theorem joinSp_cons (w : List Char) (ws : List (List Char)) (h : ws ≠ []) :
    joinSp (w :: ws) = w ++ ' ' :: joinSp ws := by
  cases ws with
  | nil => exact absurd rfl h
  | cons a t => rfl

/-- Appending one more word to a nonempty group extends the join with a
single space. -/
theorem joinSp_append_single (g : List (List Char)) (w : List Char)
    (h : g ≠ []) : joinSp (g ++ [w]) = joinSp g ++ ' ' :: w := by
  induction g with
  | nil => exact absurd rfl h
  | cons a t ih =>
    cases t with
    | nil => rfl
    | cons b t2 =>
      rw [List.cons_append, joinSp_cons a ((b :: t2) ++ [w]) (by simp),
        ih (by simp), joinSp_cons a (b :: t2) (by simp)]
      simp

/-- The join of a cons begins with its first word. -/
theorem joinSp_cons_prefix (w0 : List Char) (t : List (List Char)) :
    ∃ r, joinSp (w0 :: t) = w0 ++ r := by
  cases t with
  | nil => exact ⟨[], by simp [joinSp]⟩
  | cons b t2 => exact ⟨' ' :: joinSp (b :: t2), rfl⟩

/-- Invariant of the greedy word loop of _split_description.  Starting
from an accumulator that is the indent followed by a single-space join
of an initial word group g, the loop emits lines that are each the
indent plus the single-space join of a consecutive word group; the
emitted groups followed by the final group cover g and the remaining
words in order; and each produced line either fits maxW or carries at
most one word. -/
theorem splitLine_spec (cw : Char → ℤ) (maxW : ℤ) (indent : List Char)
    (hInd : ∀ c ∈ indent, isPySpace c = true) :
    ∀ (ws : List (List Char)) (g : List (List Char)),
      (∀ w ∈ ws, w ≠ [] ∧ ∀ c ∈ w, isPySpace c = false) →
      (∀ w ∈ g, w ≠ [] ∧ ∀ c ∈ w, isPySpace c = false) →
      (strWidth cw (indent ++ joinSp g) ≤ maxW ∨ g.length ≤ 1) →
      ∃ (gsOut : List (List (List Char))) (gFin : List (List Char)),
        splitLine cw maxW indent (indent ++ joinSp g) ws =
          (gsOut.map (fun g2 => indent ++ joinSp g2), indent ++ joinSp gFin) ∧
        gsOut.flatten ++ gFin = g ++ ws ∧
        (∀ g2 ∈ gsOut,
          strWidth cw (indent ++ joinSp g2) ≤ maxW ∨ g2.length ≤ 1) ∧
        (strWidth cw (indent ++ joinSp gFin) ≤ maxW ∨ gFin.length ≤ 1) ∧
        (ws = [] → gFin = g) ∧ (ws ≠ [] → gFin ≠ []) := by
  intro ws
  induction ws with
  | nil =>
    intro g _ _ hP
    refine ⟨[], g, ?_, ?_, ?_, hP, fun _ => rfl, fun hc => absurd rfl hc⟩
    · simp [splitLine]
    · simp
    · simp
  | cons w ws ih =>
    intro g hws hg hP
    have hw : w ≠ [] ∧ ∀ c ∈ w, isPySpace c = false :=
      hws w (List.mem_cons_self w ws)
    have hws2 : ∀ v ∈ ws, v ≠ [] ∧ ∀ c ∈ v, isPySpace c = false :=
      fun v hv => hws v (List.mem_cons_of_mem w hv)
    have htest :
        (if (indent ++ joinSp g).any (fun c => !isPySpace c)
          then (indent ++ joinSp g) ++ ' ' :: w else indent ++ w) =
        indent ++ joinSp (g ++ [w]) := by
      by_cases hgnil : g = []
      · subst hgnil
        have hany : (indent ++ joinSp []).any (fun c => !isPySpace c) = false := by
          simp only [joinSp, List.append_nil, List.any_eq_false]
          intro c hc
          simp [hInd c hc]
        rw [hany]
        simp [joinSp]
      · obtain ⟨w0, t, rfl⟩ : ∃ w0 t, g = w0 :: t := by
          cases g with
          | nil => exact absurd rfl hgnil
          | cons a t => exact ⟨a, t, rfl⟩
        have hw0 := hg w0 (List.mem_cons_self w0 t)
        obtain ⟨c0, w0t, rfl⟩ : ∃ c0 w0t, w0 = c0 :: w0t := by
          cases hv : w0 with
          | nil => exact absurd hv hw0.1
          | cons c0 w0t => exact ⟨c0, w0t, rfl⟩
        obtain ⟨r, hr⟩ := joinSp_cons_prefix (c0 :: w0t) t
        have hany :
            (indent ++ joinSp ((c0 :: w0t) :: t)).any
              (fun c => !isPySpace c) = true := by
          rw [hr]
          have hc0 : isPySpace c0 = false :=
            hw0.2 c0 (List.mem_cons_self c0 w0t)
          refine List.any_eq_true.mpr ⟨c0, ?_, by simp [hc0]⟩
          simp
        rw [hany]
        simp only [if_true]
        rw [joinSp_append_single _ w hgnil, List.append_assoc]
    by_cases hfit : strWidth cw (indent ++ joinSp (g ++ [w])) ≤ maxW
    · have hstep :
          splitLine cw maxW indent (indent ++ joinSp g) (w :: ws) =
          splitLine cw maxW indent (indent ++ joinSp (g ++ [w])) ws := by
        simp only [splitLine]
        rw [htest, if_pos hfit]
      have hgw : ∀ v ∈ g ++ [w], v ≠ [] ∧ ∀ c ∈ v, isPySpace c = false := by
        intro v hv
        rcases List.mem_append.mp hv with hv | hv
        · exact hg v hv
        · rw [List.mem_singleton.mp hv]; exact hw
      obtain ⟨gsOut, gFin, h1, h2, h3, h4, h5, h6⟩ :=
        ih (g ++ [w]) hws2 hgw (Or.inl hfit)
      refine ⟨gsOut, gFin, by rw [hstep, h1], ?_, h3, h4, ?_, ?_⟩
      · rw [h2]; simp
      · intro hc; simp at hc
      · intro _
        cases hwsnil : ws with
        | nil => rw [h5 hwsnil]; simp
        | cons a t => exact h6 (by simp [hwsnil])
    · have hstep :
          splitLine cw maxW indent (indent ++ joinSp g) (w :: ws) =
          ((indent ++ joinSp g) ::
            (splitLine cw maxW indent (indent ++ joinSp [w]) ws).1,
           (splitLine cw maxW indent (indent ++ joinSp [w]) ws).2) := by
        simp only [splitLine]
        rw [htest, if_neg hfit]
        simp [joinSp]
      have hgw : ∀ v ∈ [w], v ≠ [] ∧ ∀ c ∈ v, isPySpace c = false := by
        intro v hv
        rw [List.mem_singleton.mp hv]; exact hw
      obtain ⟨gsOut, gFin, h1, h2, h3, h4, h5, h6⟩ :=
        ih [w] hws2 hgw (Or.inr (by simp))
      refine ⟨g :: gsOut, gFin, ?_, ?_, ?_, h4, ?_, ?_⟩
      · rw [hstep, h1]; simp
      · simp only [List.flatten_cons, List.append_assoc]
        rw [h2]; simp
      · intro g2 hg2
        rcases List.mem_cons.mp hg2 with rfl | hg2
        · exact hP
        · exact h3 g2 hg2
      · intro hc; simp at hc
      · intro _
        cases hwsnil : ws with
        | nil => rw [h5 hwsnil]; simp
        | cons a t => exact h6 (by simp [hwsnil])

/-- Structure of the output of wrapPhysicalLine: the output lines are
exactly the indent followed by single-space joins of consecutive word
groups, the groups cover the words of the physical line in order, and
each output line either fits maxW or carries at most one word. -/
theorem wrapPhysicalLine_spec (cw : Char → ℤ) (maxW : ℤ)
    (pl : List Char) :
    ∃ gs : List (List (List Char)),
      wrapPhysicalLine cw maxW pl =
        gs.map (fun g => indentOf pl ++ joinSp g) ∧
      gs.flatten = wordsOf pl ∧
      ∀ g ∈ gs,
        strWidth cw (indentOf pl ++ joinSp g) ≤ maxW ∨ g.length ≤ 1 := by
  have hInd : ∀ c ∈ indentOf pl, isPySpace c = true :=
    fun c hc => List.mem_takeWhile_imp hc
  have hWords : ∀ w ∈ wordsOf pl, w ≠ [] ∧ ∀ c ∈ w, isPySpace c = false :=
    mem_splitWordsAux _ [] (by simp)
  by_cases hwnil : wordsOf pl = []
  · have hstrip : stripPy (expandTabs pl) = [] :=
      stripPy_eq_nil_of_words_nil _ hwnil
    refine ⟨[[]], ?_, by simp [hwnil], by simp⟩
    unfold wrapPhysicalLine
    rw [hwnil]
    simp [splitLine, hstrip, joinSp]
  · obtain ⟨gsOut, gFin, h1, h2, h3, h4, _, h6⟩ :=
      splitLine_spec cw maxW (indentOf pl) hInd (wordsOf pl) []
        hWords (by simp) (Or.inr (by simp))
    simp only [joinSp, List.append_nil, List.flatten_nil, List.nil_append]
      at h1 h2
    have hFinNe : gFin ≠ [] := h6 hwnil
    obtain ⟨x, t, rfl⟩ : ∃ x t, gFin = x :: t := by
      cases hv : gFin with
      | nil => exact absurd hv hFinNe
      | cons x t => exact ⟨x, t, rfl⟩
    have hxmem : x ∈ wordsOf pl := by
      rw [← h2]
      exact List.mem_append_right _ (List.mem_cons_self x t)
    have hxne : x ≠ [] := (hWords x hxmem).1
    have hr2ne : indentOf pl ++ joinSp (x :: t) ≠ [] := by
      obtain ⟨r, hr⟩ := joinSp_cons_prefix x t
      rw [hr]
      intro hcontra
      rcases List.append_eq_nil.mp hcontra with ⟨_, hxr⟩
      exact hxne (List.append_eq_nil.mp hxr).1
    refine ⟨gsOut ++ [x :: t], ?_, ?_, ?_⟩
    · unfold wrapPhysicalLine
      rw [h1]
      simp only []
      rw [if_pos (Or.inl hr2ne)]
      rw [List.map_append]
      rfl
    · rw [List.flatten_append]
      simpa using h2
    · intro g hgm
      rcases List.mem_append.mp hgm with hgm | hgm
      · exact h3 g hgm
      · rw [List.mem_singleton.mp hgm]
        exact h4

/-! Helper lemmas about pagination. -/

/-- Flattening the pages of the pagination loop reproduces the pending
page followed by the remaining items. -/
theorem paginateGo_flatten {α : Type} (h : α → ℤ) (minY yPos : ℤ) :
    ∀ (items : List α) (currentY : ℤ) (acc : List α),
      ((paginateGo h minY yPos items currentY acc).map Prod.snd).flatten =
        acc ++ items := by
  intro items
  induction items with
  | nil =>
    intro currentY acc
    by_cases hacc : acc.isEmpty <;>
      simp_all [paginateGo, List.isEmpty_iff]
  | cons it rest ih =>
    intro currentY acc
    simp only [paginateGo]
    split
    · simp [ih]
    · rw [ih]
      simp

/-- Invariant of the pagination loop: starting from a pending page
whose rows and cursor are consistent and which is either small or
within the band, every emitted page is nonempty, records yPos, and
either holds a single row or fits the band yPos - minY. -/
theorem paginateGo_band {α : Type} (h : α → ℤ) (minY yPos : ℤ) :
    ∀ (items : List α) (acc : List α),
      (acc = [] ∨ acc.length = 1 ∨ (acc.map h).sum ≤ yPos - minY) →
      ∀ p ∈ paginateGo h minY yPos items (yPos - (acc.map h).sum) acc,
        p.2 ≠ [] ∧ (p.2.length = 1 ∨ (p.2.map h).sum ≤ yPos - minY) ∧
          p.1 = yPos := by
  intro items
  induction items with
  | nil =>
    intro acc hacc p hp
    simp only [paginateGo] at hp
    split at hp
    · simp at hp
    · next hne =>
      simp only [List.mem_singleton] at hp
      subst hp
      have haccne : acc ≠ [] := by
        intro hc
        simp [hc] at hne
      exact ⟨haccne, hacc.resolve_left haccne, rfl⟩
  | cons it rest ih =>
    intro acc hacc p hp
    simp only [paginateGo] at hp
    split at hp
    · next hguard =>
      rcases List.mem_cons.mp hp with rfl | hp2
      · have haccne : acc ≠ [] := by
          intro hc
          simp [hc] at hguard
        exact ⟨haccne, hacc.resolve_left haccne, rfl⟩
      · have hsum1 : yPos - h it = yPos - (([it]).map h).sum := by simp
        rw [hsum1] at hp2
        exact ih [it] (Or.inr (Or.inl rfl)) p hp2
    · next hguard =>
      have hsum2 : yPos - (acc.map h).sum - h it =
          yPos - ((acc ++ [it]).map h).sum := by
        simp [List.map_append, List.sum_append]
        omega
      rw [hsum2] at hp
      refine ih (acc ++ [it]) ?_ p hp
      by_cases hacc0 : acc = []
      · subst hacc0
        exact Or.inr (Or.inl (by simp))
      · right; right
        have hnlt : ¬ (yPos - (acc.map h).sum - h it < minY) := by
          intro hlt
          exact hguard ⟨hlt, by simp [List.isEmpty_iff, hacc0]⟩
        simp only [List.map_append, List.sum_append, List.map_cons,
          List.map_nil, List.sum_cons, List.sum_nil]
        omega

/-- The rows of all pages of _paginate_table_rows, in order, are exactly
the decorated items in order. -/
theorem paginate_table_rows_flatten (cw : Char → ℤ)
    (items : List (List Char)) (y : ℤ) :
    ((paginate_table_rows cw items y).map Prod.snd).flatten =
      items.map (rowOf cw) := by
  unfold paginate_table_rows paginateRows
  have := paginateGo_flatten (fun r : Row => r.2.2) min_table_y y
    (items.map (rowOf cw)) y []
  simpa using this

/-- Wrapping a physical line that is a single whitespace-free word
fitting maxW yields that word alone. -/
theorem wrapPhysicalLine_single_word (cw : Char → ℤ) (maxW : ℤ)
    (s : List Char) (hne : s ≠ [])
    (hns : ∀ c ∈ s, isPySpace c = false)
    (hfit : strWidth cw s ≤ maxW) :
    wrapPhysicalLine cw maxW s = [s] := by
  have hnt : ∀ c ∈ s, c ≠ '\t' := by
    intro c hc htab
    subst htab
    simpa [isPySpace] using hns '\t' hc
  have hexp : expandTabs s = s := expandTabs_eq_self s hnt
  have hstrip : stripPy s = s := stripPy_eq_self s hns
  have hind : indentOf s = [] := by
    unfold indentOf
    rw [hexp]
    cases s with
    | nil => exact absurd rfl hne
    | cons a t =>
      rw [List.takeWhile_cons, if_neg (by simp [hns a (List.mem_cons_self a t)])]
  have hwords : wordsOf s = [s] := by
    unfold wordsOf
    rw [hexp, hstrip, splitWordsPy_single s hne hns]
  have hany : s.any (fun c => !isPySpace c) = true := by
    cases s with
    | nil => exact absurd rfl hne
    | cons a t =>
      exact List.any_eq_true.mpr
        ⟨a, List.mem_cons_self a t, by simp [hns a (List.mem_cons_self a t)]⟩
  unfold wrapPhysicalLine
  rw [hind, hwords, hexp, hstrip]
  simp [splitLine, hfit, hne]

/-- Wrapping the empty physical line yields exactly one empty line. -/
theorem wrapPhysicalLine_nil (cw : Char → ℤ) (maxW : ℤ) :
    wrapPhysicalLine cw maxW [] = [[]] := by
  unfold wrapPhysicalLine
  simp [indentOf, wordsOf, expandTabs, stripPy, splitWordsPy, splitWordsAux,
    splitLine]

/-! Claim theorems. -/

/-- C3: concatenating the rows of all pages returned by
_paginate_table_rows, in page order then row order, yields exactly the
original item list: the rows are the decorated items in order, and
projecting every row to its item reproduces the input with no omission,
duplication or reordering. -/
theorem paginate_rows_coverage (cw : Char → ℤ) (items : List (List Char))
    (y : ℤ) :
    ((paginate_table_rows cw items y).map Prod.snd).flatten =
      items.map (rowOf cw) ∧
    (((paginate_table_rows cw items y).map Prod.snd).flatten).map
      (fun r => r.1) = items := by
  refine ⟨paginate_table_rows_flatten cw items y, ?_⟩
  rw [paginate_table_rows_flatten cw items y, List.map_map]
  have hproj : ((fun r : Row => r.1) ∘ rowOf cw) = fun d => d := rfl
  rw [hproj, List.map_id']

/-- C6: wrapping a text with an empty physical line between two
non-empty lines yields exactly one empty output line at that position:
split_description of the text Line1 LF LF Line2 is exactly the three
lines Line1, empty, Line2, for any width that fits each word. -/
theorem split_description_blank_line (cw : Char → ℤ) (w : ℤ)
    (h1 : strWidth cw "Line1".data ≤ w)
    (h2 : strWidth cw "Line2".data ≤ w) :
    split_description cw w "Line1\n\nLine2".data =
      ["Line1".data, [], "Line2".data] := by
  have hs : splitlinesPy "Line1\n\nLine2".data =
      ["Line1".data, [], "Line2".data] := by decide
  unfold split_description
  rw [hs, List.map_cons, List.map_cons, List.map_cons, List.map_nil,
    wrapPhysicalLine_single_word cw w _ (by decide) (by decide) h1,
    wrapPhysicalLine_nil,
    wrapPhysicalLine_single_word cw w _ (by decide) (by decide) h2]
  rfl

/-- Witness for C6 at unit widths. -/
theorem split_description_blank_line_witness :
    split_description cwOne 100 "Line1\n\nLine2".data =
      ["Line1".data, [], "Line2".data] :=
  split_description_blank_line cwOne 100 (by decide) (by decide)

/-- C7: the pagination loop is total (structural recursion on the item
list), every returned page holds at least one row, and on every page,
except one holding a single row taller than the usable band, the row
heights sum to at most the band between the tableTopY argument and
FOOTER_HEIGHT + inch. -/
theorem paginateRows_band {α : Type} (h : α → ℤ) (yPos : ℤ)
    (items : List α) :
    ∀ p ∈ paginateRows h min_table_y yPos items,
      p.2 ≠ [] ∧
      ((p.2.map h).sum ≤ yPos - min_table_y ∨
        ∃ r, p.2 = [r] ∧ yPos - min_table_y < h r) := by
  intro p hp
  have h0 : paginateRows h min_table_y yPos items =
      paginateGo h min_table_y yPos items
        (yPos - (([] : List α).map h).sum) [] := by
    simp [paginateRows]
  rw [h0] at hp
  obtain ⟨hne, hband, _⟩ :=
    paginateGo_band h min_table_y yPos items [] (Or.inl rfl) p hp
  refine ⟨hne, ?_⟩
  rcases hband with hlen | hsum
  · obtain ⟨r, hr⟩ := List.length_eq_one.mp hlen
    by_cases hcase : h r ≤ yPos - min_table_y
    · left
      rw [hr]
      simpa using hcase
    · right
      exact ⟨r, hr, by omega⟩
  · left
    exact hsum

/-- Witness for C7 on a one-item list of height 1800. -/
theorem paginateRows_band_witness :
    (((52560 : ℤ), [(0 : ℤ)]).2 ≠ []) ∧
    (((((52560 : ℤ), [(0 : ℤ)]).2.map (fun _ : ℤ => (1800 : ℤ))).sum ≤
        52560 - min_table_y) ∨
      ∃ r, ((52560 : ℤ), [(0 : ℤ)]).2 = [r] ∧
        52560 - min_table_y < (fun _ : ℤ => (1800 : ℤ)) r) :=
  paginateRows_band (fun _ : ℤ => 1800) 52560 [0]
    ((52560 : ℤ), [(0 : ℤ)]) (by decide)

/-- C8: every row built during pagination has height
max(0.25 inch, 0.18 inch × wrapped line count); the height formula is
strictly increasing in the line count from one line upward, and the
height never falls below the 0.25 inch floor. -/
theorem row_height_formula (cw : Char → ℤ) (items : List (List Char))
    (y : ℤ) (p : ℤ × List Row) (r : Row)
    (hp : p ∈ paginate_table_rows cw items y) (hr : r ∈ p.2) :
    r.2.2 = max row_min_height (row_line_height *
      ((split_description cw desc_col_width r.1).length : ℤ)) ∧
    (∀ m n : ℕ, 1 ≤ m → m < n →
      max row_min_height (row_line_height * (m : ℤ)) <
        max row_min_height (row_line_height * (n : ℤ))) ∧
    row_min_height ≤ r.2.2 := by
  have hmem : r ∈ ((paginate_table_rows cw items y).map Prod.snd).flatten :=
    List.mem_flatten.mpr ⟨p.2, List.mem_map.mpr ⟨p, hp, rfl⟩, hr⟩
  rw [paginate_table_rows_flatten] at hmem
  obtain ⟨d, _, rfl⟩ := List.mem_map.mp hmem
  refine ⟨rfl, ?_, ?_⟩
  · intro m n h1 h2
    simp only [row_min_height, row_line_height]
    omega
  · exact le_max_left _ _

/-- Witness for C8 on a single short item. -/
theorem row_height_formula_witness :
    ((['a'], [['a']], (1800 : ℤ)) : Row).2.2 =
      max row_min_height (row_line_height *
        ((split_description cwOne desc_col_width
          ((['a'], [['a']], (1800 : ℤ)) : Row).1).length : ℤ)) ∧
    (∀ m n : ℕ, 1 ≤ m → m < n →
      max row_min_height (row_line_height * (m : ℤ)) <
        max row_min_height (row_line_height * (n : ℤ))) ∧
    row_min_height ≤ ((['a'], [['a']], (1800 : ℤ)) : Row).2.2 :=
  row_height_formula cwOne [['a']] 52560
    (52560, [(['a'], [['a']], 1800)]) (['a'], [['a']], 1800)
    (by decide) (by decide)

/-- C9: _draw_totals_section reports no fit exactly when the box bottom
would cross the minimum-bottom threshold, that is when
y_position - box_height < FOOTER_HEIGHT + inch; and in the no-fit case
it draws nothing and returns the input y_position unchanged. -/
theorem totals_fit_iff (td : TotalsData) (y : ℤ) :
    ((draw_totals_section td y).1 = false ↔
      y - box_height < FOOTER_HEIGHT + inch) ∧
    ((draw_totals_section td y).1 = false →
      (draw_totals_section td y).2.1 = y ∧
      (draw_totals_section td y).2.2 = []) := by
  unfold draw_totals_section
  split_ifs with h
  · exact ⟨iff_of_true rfl h, fun _ => ⟨rfl, rfl⟩⟩
  all_goals exact ⟨iff_of_false (by simp) h, fun hc => by simp at hc⟩

/-- Witness for C9: at y = 0 the box does not fit, nothing is drawn and
the y offset is returned unchanged. -/
theorem totals_fit_iff_witness :
    (draw_totals_section tdZero 0).2.1 = 0 ∧
    (draw_totals_section tdZero 0).2.2 = [] :=
  (totals_fit_iff tdZero 0).2 ((totals_fit_iff tdZero 0).1.mpr (by decide))

/-- C10: within each physical line, _split_description collapses every
run of internal whitespace between words to a single space: the output
is the per-line concatenation of wrapped segments, and each segment of a
physical line is that line's preserved leading indent followed by a
single-space join of a consecutive group of its words, the groups
covering the words in order. -/
theorem split_description_collapse (cw : Char → ℤ) (maxW : ℤ)
    (text : List Char) :
    split_description cw maxW text =
      ((splitlinesPy text).map (wrapPhysicalLine cw maxW)).flatten ∧
    ∀ pl ∈ splitlinesPy text, ∃ gs : List (List (List Char)),
      wrapPhysicalLine cw maxW pl =
        gs.map (fun g => indentOf pl ++ joinSp g) ∧
      gs.flatten = wordsOf pl :=
  ⟨rfl, fun pl _ =>
    (wrapPhysicalLine_spec cw maxW pl).imp fun _ hgs => ⟨hgs.1, hgs.2.1⟩⟩

/-- Witness for C10 on one physical line with two words. -/
theorem split_description_collapse_witness :
    ∃ gs : List (List (List Char)),
      wrapPhysicalLine cwOne 100 "a b".data =
        gs.map (fun g => indentOf "a b".data ++ joinSp g) ∧
      gs.flatten = wordsOf "a b".data :=
  (split_description_collapse cwOne 100 "a b".data).2 "a b".data (by decide)

/-- C5 as stated is false: with unit character widths and maxWidth 1,
the physical line of two spaces then x emits the bare two-space indent
as a line of width 2 containing no token. -/
theorem split_description_width_claim_counterexample :
    ¬ (∀ l ∈ split_description cwOne 1 "  x".data,
        strWidth cwOne l ≤ 1 ∨ (splitWordsPy l).length = 1) := by
  decide

/-- C5 amended: every line returned by _split_description measures at
most maxWidth, except lines that consist of a whitespace indent followed
by at most one whitespace-free token (the oversized token placed alone,
or the bare indent emitted when the first word of an indented line
overflows); a token is never split across lines. -/
theorem split_description_width_bound (cw : Char → ℤ) (maxW : ℤ)
    (text : List Char) :
    ∀ l ∈ split_description cw maxW text,
      strWidth cw l ≤ maxW ∨
      ∃ ind w, (∀ c ∈ ind, isPySpace c = true) ∧
        (∀ c ∈ w, isPySpace c = false) ∧ l = ind ++ w := by
  intro l hl
  unfold split_description at hl
  rw [List.mem_flatten] at hl
  obtain ⟨s, hs, hls⟩ := hl
  rw [List.mem_map] at hs
  obtain ⟨pl, hpl, rfl⟩ := hs
  obtain ⟨gs, heq, hflat, hP⟩ := wrapPhysicalLine_spec cw maxW pl
  rw [heq, List.mem_map] at hls
  obtain ⟨g, hg, rfl⟩ := hls
  rcases hP g hg with h | h
  · exact Or.inl h
  · right
    cases g with
    | nil =>
      exact ⟨indentOf pl, [], fun c hc => List.mem_takeWhile_imp hc,
        by simp, by simp [joinSp]⟩
    | cons w t =>
      have ht : t = [] := by
        cases t with
        | nil => rfl
        | cons b t2 => simp at h
      subst ht
      have hwmem : w ∈ wordsOf pl := by
        rw [← hflat]
        exact List.mem_flatten.mpr ⟨[w], hg, List.mem_cons_self w []⟩
      exact ⟨indentOf pl, w, fun c hc => List.mem_takeWhile_imp hc,
        (mem_splitWordsAux _ [] (by simp) w hwmem).2, by simp [joinSp]⟩

/-- Witness for C5: the single line returned for the one-character text
x at maxWidth 1. -/
theorem split_description_width_bound_witness :
    strWidth cwOne "x".data ≤ 1 ∨
    ∃ ind w, (∀ c ∈ ind, isPySpace c = true) ∧
      (∀ c ∈ w, isPySpace c = false) ∧ "x".data = ind ++ w :=
  split_description_width_bound cwOne 1 "x".data "x".data (by decide)

/-- C4 as stated is false: tabs are expanded first, but the wrap loop
then tokenizes on whitespace, so the run of four spaces between A and B
collapses to a single space in the drawn line. -/
theorem notes_tab_claim_counterexample :
    draw_notes_section cwOne 50400 "A\tB\nC".data ≠
      ["Notes: A    B".data, "C".data] := by
  decide

/-- C4 amended: for notes A tab B LF C with the label, the first drawn
line is the label followed by A, one space and B (the tab-expanded run
collapses to a single space during tokenization), the second drawn line
is C with no label; only the first wrapped line of the notes block
carries the label, and its available width is maxW reduced by the
rendered label width. -/
theorem notes_first_line_label (cw : Char → ℤ) (maxW : ℤ)
    (hfit : strWidth cw "A B".data ≤ maxW - strWidth cw notes_label) :
    draw_notes_section cw maxW "A\tB\nC".data =
      ["Notes: A B".data, "C".data] := by
  unfold draw_notes_section
  rw [if_neg (by decide : ¬ ("A\tB\nC".data = []))]
  have hsl : splitlinesPy (expandTabs "A\tB\nC".data) =
      ["A    B".data, "C".data] := by decide
  rw [hsl]
  show wrap_line cw maxW "A    B".data true ++
      ((["C".data]).map (fun l2 => wrap_line cw maxW l2 false)).flatten =
      ["Notes: A B".data, "C".data]
  have hfit2 : strWidth cw ['A', ' ', 'B'] ≤
      maxW - strWidth cw notes_label := hfit
  have hAB : wrap_line cw maxW "A    B".data true =
      ["Notes: A B".data] := by
    unfold wrap_line
    rw [show splitWordsPy (lstripPy "A    B".data) = [['A'], ['B']]
      from by decide]
    simp only [wrapLineGo]
    simp
    rw [if_neg (not_lt.mpr hfit2)]
    decide
  have hC : wrap_line cw maxW "C".data false = ["C".data] := by
    unfold wrap_line
    rw [show splitWordsPy "C".data = [['C']] from by decide]
    simp only [wrapLineGo]
    simp
  rw [hAB]
  simp only [List.map_cons, List.map_nil]
  rw [hC]
  rfl

/-- Witness for C4 at unit widths and the source notes width. -/
theorem notes_first_line_label_witness :
    draw_notes_section cwOne 50400 "A\tB\nC".data =
      ["Notes: A B".data, "C".data] :=
  notes_first_line_label cwOne 50400 (by decide)

/-- C1 fails on the code: with unit character widths, three-line
addresses and eleven one-line items, the dry-run probe measures the
totals fit from table_pages[-1][0] while the real render first draws a
0.3 inch table header, so the probe reports fit (page count 1) while
the real render reports no fit and emits 2 pages.  The result tuple is
(computed page count, pages actually emitted, probe fit, real fit). -/
theorem generate_invoice_probe_render_divergence :
    generate_invoice cwOne addr3 addr3 tdZero
      (List.replicate 11 ['a']) = some (1, 2, true, false) := by
  decide

/-- C2 fails on the code: with an empty item list pagination returns no
pages and generate_invoice evaluates table_pages[-1] on the empty list,
raising IndexError (modeled as none) instead of producing a single-page
document. -/
theorem generate_invoice_empty_items (cw : Char → ℤ)
    (ca cu : List Char) (td : TotalsData) (y : ℤ) :
    paginate_table_rows cw [] y = [] ∧
    generate_invoice cw ca cu td [] = none :=
  ⟨rfl, rfl⟩
